import Mathlib

/-!
Verification of the storage domain model and path-sanitization core of the
`pushkind-files` repository (`src/domain/mod.rs`, `src/services/files.rs`,
`src/services/mod.rs`, `src/dto/mod.rs`, `src/forms/main.rs`).

The embedding models a Rust `PathBuf` (Unix platform, valid UTF-8 assumed, so
`to_string_lossy` is the identity) as a `List Char` together with a faithful
translation of `std::path::Components` parsing: a leading run of separators
yields one `rootDir` component, empty segments are dropped, a `.` segment is
kept only when it is the first segment of a rootless path, `..` parses to
`parentDir`, and everything else is a `normal` segment.  `PathBuf::push` is
translated as `pushPath`, including its replace-on-absolute behaviour.

Filesystem state is modelled as a finite list of entries keyed by parsed
component lists (mirroring that the OS resolves `a//b`, `a/./b` and `a/b` to
the same object); `create_dir_all`, `read_dir`, existence/directory tests and
file persistence are small executable functions over that state.  I/O error
payloads (`std::io::Error`) carry no information used by the code, so the
corresponding `ServiceError` constructors are nullary here.
-/

/-- A parsed path component, after `std::path::Components` normalisation. -/
inductive PathComponent where
  | rootDir
  | curDir
  | parentDir
  | normal (name : List Char)
deriving DecidableEq, Repr

/-- Split a character list at every `'/'`, keeping empty chunks
(the behaviour of splitting an `OsStr` at separator bytes). -/
def splitSlash : List Char → List (List Char)
  | [] => [[]]
  | c :: rest =>
    if c = '/' then [] :: splitSlash rest
    else
      match splitSlash rest with
      | [] => [[c]]
      | h :: t => (c :: h) :: t

/-- The non-empty segments of a path. -/
def segmentsOf (l : List Char) : List (List Char) :=
  (splitSlash l).filter (fun p => !p.isEmpty)

/-- Whether the path begins with a separator (`has_root` on Unix). -/
def hasRoot (l : List Char) : Bool :=
  match l with
  | c :: _ => decide (c = '/')
  | [] => false

/-- Parse one non-`"."` segment: `".."` is the parent marker, the rest are
normal segments. -/
def parseSegment (p : List Char) : PathComponent :=
  if p = ['.', '.'] then PathComponent.parentDir else PathComponent.normal p

/-- The non-root, non-leading-`.` components of a path. -/
def bodyOf (l : List Char) : List PathComponent :=
  ((segmentsOf l).filter (fun p => p ≠ ['.'])).map parseSegment

/-- All components of a path, following `Path::components()` on Unix. -/
def componentsOf (l : List Char) : List PathComponent :=
  if hasRoot l = false ∧ (segmentsOf l).head? = some ['.'] then
    PathComponent.curDir :: bodyOf l
  else
    (if hasRoot l then [PathComponent.rootDir] else []) ++ bodyOf l

/-- `PathBuf::push` on Unix: an absolute argument replaces the path, otherwise
the argument is appended, inserting a separator when needed. -/
def pushPath (u v : List Char) : List Char :=
  if hasRoot v then v
  else if u = [] then v
  else if u.getLast? = some '/' then u ++ v
  else u ++ '/' :: v

/-- `Path::starts_with`: the components of `base` are a prefix of the
components of `p` (whole components only). -/
def pathStartsWith (p base : List Char) : Prop :=
  componentsOf base <+: componentsOf p

instance (p base : List Char) : Decidable (pathStartsWith p base) :=
  decidable_of_iff
    (componentsOf base = List.take (componentsOf base).length (componentsOf p))
    List.prefix_iff_eq_take.symm

instance exceptDecEq {ε α : Type} [DecidableEq ε] [DecidableEq α] :
    DecidableEq (Except ε α) := fun x y =>
  match x, y with
  | Except.ok a, Except.ok b =>
    if h : a = b then isTrue (by rw [h]) else isFalse (fun hc => h (Except.ok.inj hc))
  | Except.error a, Except.error b =>
    if h : a = b then isTrue (by rw [h]) else isFalse (fun hc => h (Except.error.inj hc))
  | Except.ok _, Except.error _ => isFalse (fun hc => Except.noConfusion hc)
  | Except.error _, Except.ok _ => isFalse (fun hc => Except.noConfusion hc)

/-- `TypeConstraintError` from `src/domain/mod.rs`. -/
inductive TypeConstraintError where
  | invalidPath
  | invalidFileName
deriving DecidableEq, Repr

/-- `RelativePath`: a path relative to a hub's storage root, assumed
sanitized (`src/domain/mod.rs`). -/
structure RelativePath where
  val : List Char
deriving DecidableEq, Repr

/-- `RelativePath::try_new`: reject any path one of whose components is the
parent-directory marker. -/
def RelativePath.tryNew (path : List Char) : Except TypeConstraintError RelativePath :=
  if PathComponent.parentDir ∈ componentsOf path then
    Except.error TypeConstraintError.invalidPath
  else
    Except.ok ⟨path⟩

/-- `RelativePath::try_from_str`: `trim_start_matches('/')` (drop every
leading separator), then `try_new`. -/
def RelativePath.tryFromStr (input : String) : Except TypeConstraintError RelativePath :=
  RelativePath.tryNew (input.data.dropWhile (fun c => c = '/'))

/-- `RelativePath::root`: the empty path. -/
def RelativePath.root : RelativePath := ⟨[]⟩

/-- `RelativePath::join`: push the child onto a clone of the parent. -/
def RelativePath.join (a b : RelativePath) : RelativePath :=
  ⟨pushPath a.val b.val⟩

/-- `FileName`: a sanitized file name, a single normal path component
(`src/domain/mod.rs`). -/
structure FileName where
  val : List Char
deriving DecidableEq, Repr

/-- `FileName::try_new`: accept exactly the strings whose parsed components
are one normal segment, and store that segment's text. -/
def FileName.tryNew (value : List Char) : Except TypeConstraintError FileName :=
  match componentsOf value with
  | [PathComponent.normal c] => Except.ok ⟨c⟩
  | _ => Except.error TypeConstraintError.invalidFileName

/-- `FileName::try_from_str`. -/
def FileName.tryFromStr (value : String) : Except TypeConstraintError FileName :=
  FileName.tryNew value.data

/-- `Path::extension` restricted to a single file-name segment
(`rsplit_file_at_dot`): no extension when there is no dot, or when the only
dot is leading, or for the literal `".."`; otherwise the text after the last
dot. -/
def extensionOfSegment (f : List Char) : Option (List Char) :=
  if f = ['.', '.'] then none
  else
    match f.splitOn '.' with
    | [] => none
    | [_] => none
    | [p, q] => if p = [] then none else some q
    | ps => ps.getLast?

/-- `Path::file_name`: the last component when it is a normal one. -/
def fileNameOfPath (l : List Char) : Option (List Char) :=
  match (componentsOf l).getLast? with
  | some (PathComponent.normal c) => some c
  | _ => none

/-- `Path::extension` for a whole path. -/
def pathExtension (l : List Char) : Option (List Char) :=
  (fileNameOfPath l).bind extensionOfSegment

/-- `to_ascii_lowercase` on a character. -/
def asciiLowerChar (c : Char) : Char :=
  if 'A' ≤ c ∧ c ≤ 'Z' then Char.ofNat (c.toNat + 32) else c

/-- `to_ascii_lowercase` on a string. -/
def asciiLower (l : List Char) : List Char := l.map asciiLowerChar

/-- The fixed image-extension set of `FileName::is_image`. -/
def imageExtensions : List (List Char) :=
  ["png".data, "jpg".data, "jpeg".data, "gif".data, "webp".data, "bmp".data, "svg".data]

/-- `FileName::is_image`: the lowercased extension lies in the fixed set. -/
def FileName.isImage (n : FileName) : Bool :=
  match pathExtension n.val with
  | some ext => decide (asciiLower ext ∈ imageExtensions)
  | none => false

/-- `HubId` is an `i32` used only through its decimal `Display` form. -/
abbrev HubId := Int

/-- `HubId::to_string`. -/
def hubIdChars (h : HubId) : List Char := (toString h).data

/-- `HubStorage`: an upload root paired with a hub id
(`src/domain/mod.rs`). -/
structure HubStorage where
  root : List Char
  hubId : HubId
deriving DecidableEq, Repr

/-- `HubStorage::hub_root`: `root / hub_id.to_string()`. -/
def HubStorage.hubRoot (s : HubStorage) : List Char :=
  pushPath s.root (hubIdChars s.hubId)

/-- `HubStorage::resolve_dir`: `hub_root() / relative`. -/
def HubStorage.resolveDir (s : HubStorage) (relative : RelativePath) : List Char :=
  pushPath s.hubRoot relative.val

/-- `HubStorage::resolve_file`: `resolve_dir(relative) / name`. -/
def HubStorage.resolveFile (s : HubStorage) (relative : RelativePath) (n : FileName) : List Char :=
  pushPath (s.resolveDir relative) n.val

/-- `EntryKind` from `src/domain/mod.rs`. -/
inductive EntryKind where
  | directory
  | file (isImage : Bool)
deriving DecidableEq, Repr

/-- `StorageEntry` from `src/domain/mod.rs`. -/
structure StorageEntry where
  name : FileName
  kind : EntryKind
deriving DecidableEq, Repr

/-- `StorageEntry::is_directory`. -/
def StorageEntry.isDirectory (e : StorageEntry) : Bool :=
  match e.kind with
  | EntryKind.directory => true
  | _ => false

/-- `StorageEntry::is_image`: true exactly for `File { is_image: true }`. -/
def StorageEntry.isImage (e : StorageEntry) : Bool :=
  match e.kind with
  | EntryKind.file b => b
  | _ => false

/-- `FileEntryDto` from `src/dto/mod.rs`. -/
structure FileEntryDto where
  name : String
  isDirectory : Bool
  isImage : Bool
deriving DecidableEq, Repr

/-- `impl From<StorageEntry> for FileEntryDto`. -/
def FileEntryDto.ofEntry (e : StorageEntry) : FileEntryDto :=
  ⟨⟨e.name.val⟩, e.isDirectory, e.isImage⟩

/-- `ServiceError` from `src/services/mod.rs` (I/O payloads omitted: the code
never inspects them). -/
inductive ServiceError where
  | unauthorized
  | validation (message : String)
  | invalidPath
  | invalidFileName
  | storageSetup
  | listEntries
  | createFolder
  | saveFile
deriving DecidableEq, Repr

/-- `AuthenticatedUser` (`pushkind_common::domain::auth`, mirrored by
`src/models/auth.rs`): the service reads only `hub_id` and `roles`. -/
structure AuthenticatedUser where
  sub : String
  email : String
  hubId : Int
  name : String
  roles : List String
  exp : Nat
deriving DecidableEq, Repr

/-- Modelled from the spec: `check_role` comes from the external
`pushkind_common` crate; per the spec the identity "must carry the required
role", i.e. the required role string is a member of the identity's role set
(the repository's own `ensure_role` in `src/routes/mod.rs` uses the same
membership test). -/
def checkRole (role : String) (roles : List String) : Bool :=
  roles.contains role

/-- `SERVICE_ACCESS_ROLE` from `src/lib.rs`. -/
def accessRole : String := "crm"

/-- `CreateFolderForm` from `src/forms/main.rs`. -/
structure CreateFolderForm where
  name : String
deriving DecidableEq, Repr

/-- Modelled from the spec: the external `validator` crate's derived
`validate` for `CreateFolderForm` enforces `length(min = 1)` on `name`
("Validate requested_name is non-empty"); the error message text is the
crate's rendering of the failure. -/
def CreateFolderForm.validate (f : CreateFolderForm) : Except String Unit :=
  if 1 ≤ f.name.length then Except.ok () else Except.error "name: length"

/-- Filesystem state: a finite list of entries, each an absolute path (as
parsed components, since the OS identifies `a//b`, `a/./b` and `a/b`) paired
with whether it is a directory (`true`) or a file (`false`). -/
structure Fs where
  entries : List (List PathComponent × Bool)
deriving DecidableEq, Repr

/-- Whether any entry lives at the given components (`Path::exists`). -/
def Fs.existsAt (fs : Fs) (c : List PathComponent) : Bool :=
  fs.entries.any (fun e => decide (e.1 = c))

/-- Whether a directory lives at the given components (`Path::is_dir`). -/
def Fs.isDirAt (fs : Fs) (c : List PathComponent) : Bool :=
  fs.entries.any (fun e => decide (e.1 = c) && e.2)

/-- Whether a file lives at the given components. -/
def Fs.isFileAt (fs : Fs) (c : List PathComponent) : Bool :=
  fs.entries.any (fun e => decide (e.1 = c) && !e.2)

/-- Every non-empty prefix of a component list, shortest first. -/
def componentPrefixes (c : List PathComponent) : List (List PathComponent) :=
  (List.range c.length).map (fun i => c.take (i + 1))

/-- Record a directory at the given components if nothing is there yet. -/
def Fs.addDir (fs : Fs) (c : List PathComponent) : Fs :=
  if fs.existsAt c then fs else ⟨fs.entries ++ [(c, true)]⟩

/-- `fs::create_dir_all`: create every missing ancestor directory; it fails
when some ancestor (or the path itself) already exists as a file, and is a
no-op on directories that already exist. -/
def Fs.createDirAll (fs : Fs) (p : List Char) : Except Unit Fs :=
  let chain := componentPrefixes (componentsOf p)
  if chain.any fs.isFileAt then Except.error ()
  else Except.ok (chain.foldl Fs.addDir fs)

/-- The name of `child` when it is an immediate child of `base` with a plain
(normal) name. -/
def childNameOf (base child : List PathComponent) : Option (List Char) :=
  if child.take base.length = base then
    match child.drop base.length with
    | [PathComponent.normal n] => some n
    | _ => none
  else none

/-- `fs::read_dir`: the immediate children of a directory, as
(file name, is-directory) pairs, in storage order (`read_dir` order is
platform-defined). -/
def Fs.readDir (fs : Fs) (p : List Char) : List (List Char × Bool) :=
  fs.entries.filterMap (fun e => (childNameOf (componentsOf p) e.1).map (fun n => (n, e.2)))

/-- `TempFile::persist`: write the uploaded bytes at the path, replacing any
existing entry there (contents are not modelled; no claim depends on them). -/
def Fs.persistFile (fs : Fs) (p : List Char) : Fs :=
  let c := componentsOf p
  ⟨(fs.entries.filter (fun e => !decide (e.1 = c))) ++ [(c, false)]⟩

/-- `FileService` from `src/services/files.rs`. -/
structure FileService where
  uploadRoot : List Char
deriving DecidableEq, Repr

/-- `FileService::sanitize_path_param`. -/
def FileService.sanitizePathParam (path : Option String) : Except ServiceError RelativePath :=
  match path with
  | some p =>
    match RelativePath.tryFromStr p with
    | Except.ok r => Except.ok r
    | Except.error _ => Except.error ServiceError.invalidPath
  | none => Except.ok RelativePath.root

/-- `FileService::sanitize_file_name`: the fresh name generated when the
client supplies none is `upload-<uuid>`; the hyphenated text of the
`Uuid::new_v4` value is passed in explicitly to keep the function pure. -/
def FileService.sanitizeFileName (raw : Option String) (generatedUuid : List Char) :
    Except ServiceError FileName :=
  let generated := "upload-".data ++ generatedUuid
  let candidate := match raw with
    | some r => r.data
    | none => generated
  match FileName.tryNew candidate with
  | Except.ok n => Except.ok n
  | Except.error _ => Except.error ServiceError.invalidFileName

/-- `FileService::storage_for_hub`. -/
def FileService.storageForHub (svc : FileService) (h : HubId) : HubStorage :=
  ⟨svc.uploadRoot, h⟩

/-- `FileService::authorize`. -/
def FileService.authorize (svc : FileService) (user : AuthenticatedUser) :
    Except ServiceError HubStorage :=
  if checkRole accessRole user.roles then
    Except.ok (svc.storageForHub user.hubId)
  else
    Except.error ServiceError.unauthorized

/-- `FileService::ensure_hub_root`. -/
def FileService.ensureHubRoot (fs : Fs) (storage : HubStorage) : Except ServiceError Fs :=
  match fs.createDirAll storage.hubRoot with
  | Except.ok fs2 => Except.ok fs2
  | Except.error _ => Except.error ServiceError.storageSetup

/-- The scan/classify stage of `list_entries`: names failing `FileName`
validation are silently skipped; directories become `Directory`, other
entries `File { is_image }`. -/
def listEntriesScan (raw : List (List Char × Bool)) : List StorageEntry :=
  raw.filterMap (fun e =>
    match FileName.tryNew e.1 with
    | Except.ok name =>
      some ⟨name, if e.2 then EntryKind.directory else EntryKind.file name.isImage⟩
    | Except.error _ => none)

/-- Lexicographic order on character lists by code point, matching `Ord` on
Rust strings (UTF-8 byte order coincides with code-point order). -/
def charListLe : List Char → List Char → Bool
  | [], _ => true
  | _ :: _, [] => false
  | a :: as, b :: bs =>
    if a.toNat < b.toNat then true
    else if b.toNat < a.toNat then false
    else charListLe as bs

/-- The `sort_by` comparator of `list_entries`, as a non-strict order:
`entryLe low a b` holds when the comparator does not place `a` after `b`
(directories first, then names compared after lowercasing).  The names are
lowercased with `str::to_lowercase`; its full Unicode case-mapping tables
(and context-dependent mappings such as final sigma) are standard-library
data external to this repository, so the lowercasing function `low` is an
explicit parameter here, and every ordering result below is proved for every
choice of `low` — in particular for the function `str::to_lowercase`
actually denotes. -/
def entryLe (low : List Char → List Char) (a b : StorageEntry) : Bool :=
  match a.isDirectory, b.isDirectory with
  | true, false => true
  | false, true => false
  | _, _ => charListLe (low a.name.val) (low b.name.val)

/-- `entryLe` as a relation, for `List.insertionSort`. -/
def entryRel (low : List Char → List Char) (a b : StorageEntry) : Prop :=
  entryLe low a b = true

instance (low : List Char → List Char) : DecidableRel (entryRel low) := fun a b =>
  inferInstanceAs (Decidable (entryLe low a b = true))

/-- `Vec::sort_by` with the `list_entries` comparator: a stable sort putting
the entries in non-decreasing `entryLe low` order. -/
def sortEntries (low : List Char → List Char) (l : List StorageEntry) :
    List StorageEntry :=
  List.insertionSort (entryRel low) l

/-- `FileService::list_entries` over the filesystem model, parameterized by
the name-lowercasing function used in the sort comparator (see `entryLe`);
returns the result together with the filesystem after the call. -/
def FileService.listEntriesWith (low : List Char → List Char) (svc : FileService)
    (user : AuthenticatedUser) (relative : Option String) (fs : Fs) :
    Except ServiceError (List FileEntryDto) × Fs :=
  match svc.authorize user with
  | Except.error e => (Except.error e, fs)
  | Except.ok storage =>
    match FileService.sanitizePathParam relative with
    | Except.error e => (Except.error e, fs)
    | Except.ok rel =>
      match FileService.ensureHubRoot fs storage with
      | Except.error e => (Except.error e, fs)
      | Except.ok fs2 =>
        let targetPath := storage.resolveDir rel
        if fs2.existsAt (componentsOf targetPath) = false then
          (Except.ok [], fs2)
        else if fs2.isDirAt (componentsOf targetPath) = false then
          (Except.error ServiceError.invalidPath, fs2)
        else
          let entries := listEntriesScan (fs2.readDir targetPath)
          (Except.ok ((sortEntries low entries).map FileEntryDto.ofEntry), fs2)

/-- `FileService::list_entries` at a fixed executable lowercasing (the ASCII
case mapping), so that results not concerning the sort order — which hold
for every lowercasing function — can be stated and evaluated concretely. -/
def FileService.listEntries (svc : FileService) (user : AuthenticatedUser)
    (relative : Option String) (fs : Fs) :
    Except ServiceError (List FileEntryDto) × Fs :=
  FileService.listEntriesWith asciiLower svc user relative fs

/-- `FileService::create_folder` over the filesystem model. -/
def FileService.createFolder (svc : FileService) (user : AuthenticatedUser)
    (currentPath : Option String) (form : CreateFolderForm) (fs : Fs) :
    Except ServiceError Unit × Fs :=
  match form.validate with
  | Except.error e => (Except.error (ServiceError.validation e), fs)
  | Except.ok _ =>
    match svc.authorize user with
    | Except.error e => (Except.error e, fs)
    | Except.ok storage =>
      match FileService.ensureHubRoot fs storage with
      | Except.error e => (Except.error e, fs)
      | Except.ok fs2 =>
        match FileService.sanitizePathParam currentPath with
        | Except.error e => (Except.error e, fs2)
        | Except.ok current =>
          match RelativePath.tryFromStr form.name with
          | Except.error _ =>
            (Except.error (ServiceError.validation "Недопустимое имя папки"), fs2)
          | Except.ok newPath =>
            let combined := current.join newPath
            match fs2.createDirAll (storage.resolveDir combined) with
            | Except.ok fs3 => (Except.ok (), fs3)
            | Except.error _ => (Except.error ServiceError.createFolder, fs2)

/-- `FileService::persist_upload` over the filesystem model (the persist step
itself is modelled as always succeeding; its failure mode `SaveFile` carries
no information any claim depends on). -/
def FileService.persistUpload (svc : FileService) (user : AuthenticatedUser)
    (relative : Option String) (rawFileName : Option String) (generatedUuid : List Char)
    (fs : Fs) : Except ServiceError Unit × Fs :=
  match svc.authorize user with
  | Except.error e => (Except.error e, fs)
  | Except.ok storage =>
    match FileService.sanitizePathParam relative with
    | Except.error e => (Except.error e, fs)
    | Except.ok rel =>
      match FileService.sanitizeFileName rawFileName generatedUuid with
      | Except.error e => (Except.error e, fs)
      | Except.ok fileName =>
        match FileService.ensureHubRoot fs storage with
        | Except.error e => (Except.error e, fs)
        | Except.ok fs2 =>
          let targetDir := storage.resolveDir rel
          match fs2.createDirAll targetDir with
          | Except.error _ => (Except.error ServiceError.saveFile, fs2)
          | Except.ok fs3 =>
            let filepath := storage.resolveFile rel fileName
            (Except.ok (), fs3.persistFile filepath)

/-! ### Properties of the path parser -/

theorem splitSlash_ne_nil (l : List Char) : splitSlash l ≠ [] := by
  cases l with
  | nil => simp [splitSlash]
  | cons c rest =>
    unfold splitSlash
    by_cases h : c = '/'
    · simp [h]
    · simp only [if_neg h]
      cases splitSlash rest <;> simp

theorem splitSlash_cons_slash (rest : List Char) :
    splitSlash ('/' :: rest) = [] :: splitSlash rest := rfl

theorem splitSlash_cons_ne {c : Char} (h : ¬c = '/') {rest : List Char}
    {q : List Char} {t : List (List Char)} (hs : splitSlash rest = q :: t) :
    splitSlash (c :: rest) = (c :: q) :: t := by
  have step : splitSlash (c :: rest) =
      match splitSlash rest with
      | [] => [[c]]
      | q :: t => (c :: q) :: t := by
    conv_lhs => rw [splitSlash.eq_def]
    simp [h]
  rw [step, hs]

theorem splitSlash_append_slash (a b : List Char) :
    splitSlash (a ++ '/' :: b) = splitSlash a ++ splitSlash b := by
  induction a with
  | nil => simp [splitSlash_cons_slash, splitSlash]
  | cons c a ih =>
    by_cases h : c = '/'
    · subst h
      show splitSlash ('/' :: (a ++ '/' :: b)) = splitSlash ('/' :: a) ++ splitSlash b
      rw [splitSlash_cons_slash, splitSlash_cons_slash, ih, List.cons_append]
    · obtain ⟨q, t, hqt⟩ : ∃ q t, splitSlash a = q :: t := by
        cases hs : splitSlash a with
        | nil => exact absurd hs (splitSlash_ne_nil a)
        | cons q t => exact ⟨q, t, rfl⟩
      have h1 : splitSlash (a ++ '/' :: b) = q :: (t ++ splitSlash b) := by
        rw [ih, hqt, List.cons_append]
      show splitSlash (c :: (a ++ '/' :: b)) = splitSlash (c :: a) ++ splitSlash b
      rw [splitSlash_cons_ne h h1, splitSlash_cons_ne h hqt, List.cons_append]

theorem segmentsOf_append_slash (a b : List Char) :
    segmentsOf (a ++ '/' :: b) = segmentsOf a ++ segmentsOf b := by
  unfold segmentsOf
  rw [splitSlash_append_slash, List.filter_append]

theorem segmentsOf_cons_slash (b : List Char) :
    segmentsOf ('/' :: b) = segmentsOf b := by
  simpa using segmentsOf_append_slash [] b

theorem segmentsOf_dropWhile_slash (l : List Char) :
    segmentsOf (l.dropWhile (fun c => c = '/')) = segmentsOf l := by
  induction l with
  | nil => rfl
  | cons c rest ih =>
    by_cases h : c = '/'
    · rw [List.dropWhile_cons_of_pos (by simp [h]), ih, h, segmentsOf_cons_slash]
    · rw [List.dropWhile_cons_of_neg (by simp [h])]

theorem no_slash_of_mem_splitSlash {p : List Char} {l : List Char}
    (h : p ∈ splitSlash l) : '/' ∉ p := by
  induction l generalizing p with
  | nil =>
    simp only [splitSlash, List.mem_singleton] at h
    simp [h]
  | cons c rest ih =>
    unfold splitSlash at h
    by_cases hc : c = '/'
    · simp only [if_pos hc, List.mem_cons] at h
      rcases h with h | h
      · simp [h]
      · exact ih h
    · simp only [if_neg hc] at h
      cases hs : splitSlash rest with
      | nil => exact absurd hs (splitSlash_ne_nil rest)
      | cons q t =>
        rw [hs] at h
        simp only [List.mem_cons] at h
        rcases h with h | h
        · subst h
          intro hm
          rcases List.mem_cons.mp hm with h1 | h1
          · exact hc h1.symm
          · exact ih (by rw [hs]; exact List.mem_cons_self q t) h1
        · exact ih (by rw [hs]; exact List.mem_cons_of_mem q h)

theorem hasRoot_append {u : List Char} (hu : u ≠ []) (w : List Char) :
    hasRoot (u ++ w) = hasRoot u := by
  cases u with
  | nil => exact absurd rfl hu
  | cons c rest => rfl

theorem hasRoot_of_segmentsOf_nil {u : List Char} (hu : u ≠ [])
    (hs : segmentsOf u = []) : hasRoot u = true := by
  cases u with
  | nil => exact absurd rfl hu
  | cons c rest =>
    by_cases hc : c = '/'
    · simp [hasRoot, hc]
    · exfalso
      obtain ⟨q, t, hqt⟩ : ∃ q t, splitSlash rest = q :: t := by
        cases h : splitSlash rest with
        | nil => exact absurd h (splitSlash_ne_nil rest)
        | cons q t => exact ⟨q, t, rfl⟩
      have : segmentsOf (c :: rest) = (c :: q) :: t.filter (fun p => !p.isEmpty) := by
        unfold segmentsOf
        rw [splitSlash_cons_ne hc hqt]
        simp
      rw [this] at hs
      exact List.noConfusion hs

theorem bodyOf_append_slash (u v : List Char) :
    bodyOf (u ++ '/' :: v) = bodyOf u ++ bodyOf v := by
  unfold bodyOf
  rw [segmentsOf_append_slash, List.filter_append, List.map_append]

theorem bodyOf_nil : bodyOf [] = [] := rfl

theorem componentsOf_nil : componentsOf [] = [] := rfl

theorem componentsOf_append_slash {u : List Char} (hu : u ≠ []) (v : List Char) :
    componentsOf (u ++ '/' :: v) = componentsOf u ++ bodyOf v := by
  have hr : hasRoot (u ++ '/' :: v) = hasRoot u := hasRoot_append hu _
  by_cases hs : segmentsOf u = []
  · have hru : hasRoot u = true := hasRoot_of_segmentsOf_nil hu hs
    have hb : bodyOf u = [] := by
      unfold bodyOf
      rw [hs]
      rfl
    unfold componentsOf
    rw [hr, hru, segmentsOf_append_slash, hs, bodyOf_append_slash]
    simp [hb]
  · obtain ⟨s, ss, hss⟩ : ∃ s ss, segmentsOf u = s :: ss := by
      cases h : segmentsOf u with
      | nil => exact absurd h hs
      | cons s ss => exact ⟨s, ss, rfl⟩
    have hhead : (segmentsOf (u ++ '/' :: v)).head? = (segmentsOf u).head? := by
      rw [segmentsOf_append_slash, hss]
      rfl
    unfold componentsOf
    rw [hr, hhead, bodyOf_append_slash]
    by_cases hcond : hasRoot u = false ∧ (segmentsOf u).head? = some ['.']
    · rw [if_pos hcond, if_pos hcond, List.cons_append]
    · rw [if_neg hcond, if_neg hcond, List.append_assoc]

theorem pushPath_nil_left (v : List Char) : pushPath [] v = v := by
  unfold pushPath
  by_cases h : hasRoot v = true
  · rw [if_pos h]
  · rw [if_neg h, if_pos rfl]

theorem componentsOf_append_slash_nil {u : List Char} (hu : u ≠ []) :
    componentsOf (u ++ ['/']) = componentsOf u := by
  have := componentsOf_append_slash hu []
  simpa [bodyOf_nil] using this

theorem prefix_componentsOf_pushPath {v : List Char} (hv : hasRoot v = false)
    (u : List Char) : componentsOf u <+: componentsOf (pushPath u v) := by
  by_cases hu : u = []
  · subst hu
    rw [componentsOf_nil]
    exact List.nil_prefix
  · unfold pushPath
    rw [hv]
    simp only [Bool.false_eq_true, if_false, if_neg hu]
    by_cases hl : u.getLast? = some '/'
    · rw [if_pos hl]
      obtain ⟨u₀, hu₀⟩ : ∃ u₀, u = u₀ ++ ['/'] := List.getLast?_eq_some_iff.mp hl
      by_cases h0 : u₀ = []
      · subst h0
        simp only [List.nil_append] at hu₀
        subst hu₀
        have hcv : ('/' :: [] : List Char) ++ v = '/' :: v := rfl
        have h1 : componentsOf ('/' :: v) =
            [PathComponent.rootDir] ++ bodyOf ('/' :: v) := by
          unfold componentsOf
          have : hasRoot ('/' :: v) = true := by simp [hasRoot]
          rw [this]
          simp
        have h2 : componentsOf ['/'] = [PathComponent.rootDir] := by decide
        rw [hcv, h1, h2]
        exact ⟨bodyOf ('/' :: v), rfl⟩
      · have hv2 : u ++ v = u₀ ++ '/' :: v := by
          rw [hu₀, List.append_assoc]
          rfl
        rw [hv2, componentsOf_append_slash h0, hu₀, componentsOf_append_slash_nil h0]
        exact ⟨bodyOf v, rfl⟩
    · rw [if_neg hl, componentsOf_append_slash hu]
      exact ⟨bodyOf v, rfl⟩

theorem pushPath_abs {v : List Char} (hv : hasRoot v = true) (u : List Char) :
    pushPath u v = v := by
  unfold pushPath
  rw [if_pos hv]

theorem pushPath_eq_append {b : List Char} (hb : b ≠ []) {c : List Char}
    (hc : hasRoot c = false) :
    pushPath b c = b ++ (if b.getLast? = some '/' then c else '/' :: c) := by
  unfold pushPath
  rw [hc]
  simp only [Bool.false_eq_true, if_false, if_neg hb]
  by_cases hl : b.getLast? = some '/'
  · rw [if_pos hl, if_pos hl]
  · rw [if_neg hl, if_neg hl]

theorem pushPath_ne_nil {b : List Char} (hb : b ≠ []) {c : List Char}
    (hc : hasRoot c = false) : pushPath b c ≠ [] := by
  rw [pushPath_eq_append hb hc]
  simp [hb]

theorem hasRoot_pushPath {b : List Char} (hb : b ≠ []) {c : List Char}
    (hc : hasRoot c = false) : hasRoot (pushPath b c) = hasRoot b := by
  rw [pushPath_eq_append hb hc]
  exact hasRoot_append hb _

theorem getLast?_cons_ne {l : List Char} (hl : l ≠ []) (x : Char) :
    (x :: l).getLast? = l.getLast? := by
  cases l with
  | nil => exact absurd rfl hl
  | cons y ys => exact List.getLast?_cons_cons

theorem getLast?_pushPath {b : List Char} (hb : b ≠ []) {c : List Char}
    (hc : hasRoot c = false) :
    (pushPath b c).getLast? = if c = [] then some '/' else c.getLast? := by
  rw [pushPath_eq_append hb hc]
  by_cases hc0 : c = []
  · subst hc0
    rw [if_pos rfl]
    by_cases hl : b.getLast? = some '/'
    · rw [if_pos hl, List.append_nil, hl]
    · rw [if_neg hl, List.getLast?_append_of_ne_nil b (by simp)]
      rfl
  · rw [if_neg hc0]
    by_cases hl : b.getLast? = some '/'
    · rw [if_pos hl, List.getLast?_append_of_ne_nil b hc0]
    · rw [if_neg hl, List.getLast?_append_of_ne_nil b (by simp), getLast?_cons_ne hc0]

theorem pushPath_assoc (a b c : List Char) :
    pushPath (pushPath a b) c = pushPath a (pushPath b c) := by
  by_cases hc : hasRoot c = true
  · rw [pushPath_abs hc, pushPath_abs hc, pushPath_abs hc]
  · replace hc : hasRoot c = false := by simpa using hc
    by_cases hb : hasRoot b = true
    · have hbne : b ≠ [] := by
        cases b with
        | nil => simp [hasRoot] at hb
        | cons x xs => simp
      rw [pushPath_abs hb]
      have h2 : hasRoot (pushPath b c) = true := by
        rw [hasRoot_pushPath hbne hc, hb]
      rw [pushPath_abs h2]
    · replace hb : hasRoot b = false := by simpa using hb
      by_cases ha0 : a = []
      · subst ha0
        rw [pushPath_nil_left, pushPath_nil_left]
      · by_cases hb0 : b = []
        · subst hb0
          have hrn : hasRoot ([] : List Char) = false := rfl
          have ha' : pushPath a [] =
              a ++ (if a.getLast? = some '/' then [] else ['/']) := pushPath_eq_append ha0 hrn
          have hne : pushPath a [] ≠ [] := pushPath_ne_nil ha0 hrn
          have hlast : (pushPath a []).getLast? = some '/' := by
            rw [getLast?_pushPath ha0 hrn, if_pos rfl]
          rw [pushPath_nil_left, pushPath_eq_append hne hc, if_pos hlast,
            pushPath_eq_append ha0 hc, ha']
          by_cases hl : a.getLast? = some '/'
          · rw [if_pos hl, if_pos hl, List.append_nil]
          · rw [if_neg hl, if_neg hl, List.append_assoc]
            rfl
        · have hab : pushPath a b =
              a ++ (if a.getLast? = some '/' then b else '/' :: b) := pushPath_eq_append ha0 hb
          have habne : pushPath a b ≠ [] := pushPath_ne_nil ha0 hb
          have hablast : (pushPath a b).getLast? = b.getLast? := by
            rw [getLast?_pushPath ha0 hb, if_neg hb0]
          have hbc : pushPath b c =
              b ++ (if b.getLast? = some '/' then c else '/' :: c) := pushPath_eq_append hb0 hc
          have hbcr : hasRoot (pushPath b c) = false := by
            rw [hasRoot_pushPath hb0 hc, hb]
          rw [pushPath_eq_append habne hc, hablast, pushPath_eq_append ha0 hbcr, hbc, hab]
          by_cases hl : a.getLast? = some '/'
          · rw [if_pos hl, if_pos hl, List.append_assoc]
          · rw [if_neg hl, if_neg hl, List.append_assoc]
            rfl

theorem parseSegment_eq_parentDir {p : List Char} :
    parseSegment p = PathComponent.parentDir ↔ p = ['.', '.'] := by
  unfold parseSegment
  by_cases h : p = ['.', '.']
  · simp [h]
  · simp [h]

theorem parentDir_mem_componentsOf {l : List Char} :
    PathComponent.parentDir ∈ componentsOf l ↔ ['.', '.'] ∈ segmentsOf l := by
  constructor
  · intro h
    unfold componentsOf at h
    have hb : PathComponent.parentDir ∈ bodyOf l := by
      by_cases hcond : hasRoot l = false ∧ (segmentsOf l).head? = some ['.']
      · rw [if_pos hcond] at h
        rcases List.mem_cons.mp h with h1 | h1
        · exact absurd h1.symm (by simp)
        · exact h1
      · rw [if_neg hcond] at h
        rcases List.mem_append.mp h with h1 | h1
        · by_cases hr : hasRoot l <;> simp [hr] at h1
        · exact h1
    unfold bodyOf at hb
    obtain ⟨p, hp, hpe⟩ := List.mem_map.mp hb
    have := parseSegment_eq_parentDir.mp hpe
    subst this
    exact List.mem_of_mem_filter hp
  · intro h
    have hm : PathComponent.parentDir ∈ bodyOf l := by
      unfold bodyOf
      refine List.mem_map.mpr ⟨['.', '.'], ?_, parseSegment_eq_parentDir.mpr rfl⟩
      exact List.mem_filter.mpr ⟨h, by decide⟩
    unfold componentsOf
    by_cases hcond : hasRoot l = false ∧ (segmentsOf l).head? = some ['.']
    · rw [if_pos hcond]
      exact List.mem_cons_of_mem _ hm
    · rw [if_neg hcond]
      exact List.mem_append.mpr (Or.inr hm)

theorem splitSlash_no_slash {l : List Char} (h : '/' ∉ l) : splitSlash l = [l] := by
  induction l with
  | nil => rfl
  | cons c rest ih =>
    have hc : ¬c = '/' := fun hx => h (by rw [hx]; exact List.mem_cons_self _ _)
    have hr : '/' ∉ rest := fun hx => h (List.mem_cons_of_mem _ hx)
    exact splitSlash_cons_ne hc (ih hr)

theorem hasRoot_eq_false_of_no_slash {l : List Char} (h : '/' ∉ l) :
    hasRoot l = false := by
  cases l with
  | nil => rfl
  | cons c rest =>
    have : ¬c = '/' := fun hx => h (by rw [hx]; exact List.mem_cons_self _ _)
    simpa [hasRoot] using this

theorem componentsOf_single_normal {l : List Char} (h0 : l ≠ []) (h1 : '/' ∉ l)
    (h2 : l ≠ ['.']) (h3 : l ≠ ['.', '.']) :
    componentsOf l = [PathComponent.normal l] := by
  have hsegs : segmentsOf l = [l] := by
    unfold segmentsOf
    rw [splitSlash_no_slash h1]
    simp [h0]
  have hroot : hasRoot l = false := hasRoot_eq_false_of_no_slash h1
  unfold componentsOf
  rw [hsegs, hroot]
  have hcond : ¬(false = false ∧ ([l] : List (List Char)).head? = some ['.']) := by
    simp [h2]
  rw [if_neg hcond]
  unfold bodyOf
  rw [hsegs]
  simp only [List.filter_cons, List.filter_nil]
  simp [h2, parseSegment, h3]

theorem mem_segmentsOf_no_slash {p l : List Char} (h : p ∈ segmentsOf l) :
    '/' ∉ p ∧ p ≠ [] := by
  have h1 := List.mem_of_mem_filter h
  have h2 := List.of_mem_filter h
  refine ⟨no_slash_of_mem_splitSlash h1, ?_⟩
  simp only [Bool.not_eq_true'] at h2
  intro hx
  subst hx
  simp at h2

theorem fileName_tryNew_ok {v : List Char} {n : FileName}
    (h : FileName.tryNew v = Except.ok n) :
    componentsOf v = [PathComponent.normal n.val] := by
  unfold FileName.tryNew at h
  split at h
  · next c heq =>
    rw [heq]
    cases h
    rfl
  · exact Except.noConfusion h

theorem normal_component_no_slash {v c : List Char}
    (h : componentsOf v = [PathComponent.normal c]) : '/' ∉ c ∧ c ≠ [] := by
  have hm : PathComponent.normal c ∈ componentsOf v := by
    rw [h]
    exact List.mem_cons_self _ _
  unfold componentsOf at hm
  have hb : PathComponent.normal c ∈ bodyOf v := by
    by_cases hcond : hasRoot v = false ∧ (segmentsOf v).head? = some ['.']
    · rw [if_pos hcond] at hm
      rcases List.mem_cons.mp hm with h1 | h1
      · exact absurd h1.symm (by simp)
      · exact h1
    · rw [if_neg hcond] at hm
      rcases List.mem_append.mp hm with h1 | h1
      · by_cases hr : hasRoot v <;> simp [hr] at h1
      · exact h1
  unfold bodyOf at hb
  obtain ⟨p, hp, hpe⟩ := List.mem_map.mp hb
  have hpc : p = c := by
    unfold parseSegment at hpe
    by_cases hx : p = ['.', '.']
    · rw [if_pos hx] at hpe
      exact absurd hpe (by simp)
    · rw [if_neg hx] at hpe
      exact PathComponent.normal.inj hpe
  subst hpc
  exact mem_segmentsOf_no_slash (List.mem_of_mem_filter hp)

theorem relPath_tryNew_ok {l : List Char} {p : RelativePath}
    (h : RelativePath.tryNew l = Except.ok p) : p.val = l := by
  unfold RelativePath.tryNew at h
  by_cases hm : PathComponent.parentDir ∈ componentsOf l
  · rw [if_pos hm] at h
    exact Except.noConfusion h
  · rw [if_neg hm] at h
    cases h
    rfl

theorem relPath_tryNew_ok_no_parent {l : List Char} {p : RelativePath}
    (h : RelativePath.tryNew l = Except.ok p) :
    PathComponent.parentDir ∉ componentsOf l := by
  unfold RelativePath.tryNew at h
  by_cases hm : PathComponent.parentDir ∈ componentsOf l
  · rw [if_pos hm] at h
    exact Except.noConfusion h
  · exact hm

theorem hasRoot_dropWhile_slash (l : List Char) :
    hasRoot (l.dropWhile (fun c => c = '/')) = false := by
  induction l with
  | nil => rfl
  | cons c rest ih =>
    by_cases hc : c = '/'
    · rw [List.dropWhile_cons_of_pos (by simp [hc])]
      exact ih
    · rw [List.dropWhile_cons_of_neg (by simp [hc])]
      simpa [hasRoot] using hc

theorem charListLe_total (a b : List Char) :
    charListLe a b = true ∨ charListLe b a = true := by
  induction a generalizing b with
  | nil => exact Or.inl rfl
  | cons x xs ih =>
    cases b with
    | nil => exact Or.inr rfl
    | cons y ys =>
      unfold charListLe
      rcases Nat.lt_trichotomy x.toNat y.toNat with h | h | h
      · left
        rw [if_pos h]
      · rw [if_neg (by omega), if_neg (by omega), if_neg (by omega), if_neg (by omega)]
        exact ih ys
      · right
        rw [if_pos h]

theorem charListLe_trans {a b c : List Char} (h1 : charListLe a b = true)
    (h2 : charListLe b c = true) : charListLe a c = true := by
  induction a generalizing b c with
  | nil => rfl
  | cons x xs ih =>
    cases b with
    | nil => exact absurd h1 (by simp [charListLe])
    | cons y ys =>
      cases c with
      | nil => exact absurd h2 (by simp [charListLe])
      | cons z zs =>
        unfold charListLe at h1 h2 ⊢
        by_cases hxy : x.toNat < y.toNat
        · by_cases hyz : y.toNat < z.toNat
          · rw [if_pos (by omega)]
          · rw [if_neg hyz] at h2
            by_cases hzy : z.toNat < y.toNat
            · rw [if_pos hzy] at h2
              exact Bool.noConfusion h2
            · have : y.toNat = z.toNat := by omega
              rw [if_pos (by omega)]
        · rw [if_neg hxy] at h1
          by_cases hyx : y.toNat < x.toNat
          · rw [if_pos hyx] at h1
            exact Bool.noConfusion h1
          · rw [if_neg hyx] at h1
            have hxyeq : x.toNat = y.toNat := by omega
            by_cases hyz : y.toNat < z.toNat
            · rw [if_pos (by omega)]
            · rw [if_neg hyz] at h2
              by_cases hzy : z.toNat < y.toNat
              · rw [if_pos hzy] at h2
                exact Bool.noConfusion h2
              · rw [if_neg hzy] at h2
                rw [if_neg (by omega), if_neg (by omega)]
                exact ih h1 h2

instance (low : List Char → List Char) : IsTotal StorageEntry (entryRel low) where
  total a b := by
    unfold entryRel entryLe
    cases ha : a.isDirectory <;> cases hb : b.isDirectory
    · exact charListLe_total _ _
    · exact Or.inr rfl
    · exact Or.inl rfl
    · exact charListLe_total _ _

instance (low : List Char → List Char) : IsTrans StorageEntry (entryRel low) where
  trans a b c h1 h2 := by
    unfold entryRel entryLe at h1 h2 ⊢
    cases ha : a.isDirectory <;> cases hb : b.isDirectory <;>
      cases hc : c.isDirectory <;> rw [ha, hb] at h1 <;> rw [hb, hc] at h2
    all_goals first
      | exact charListLe_trans h1 h2
      | exact Bool.noConfusion h1
      | exact Bool.noConfusion h2

/-- The error classes the spec calls validation failures: invalid path,
invalid file name, empty/invalid folder name. -/
def validationClass {α : Type} (r : Except ServiceError α) : Bool :=
  match r with
  | Except.error ServiceError.invalidPath => true
  | Except.error (ServiceError.validation _) => true
  | Except.error ServiceError.invalidFileName => true
  | _ => false

theorem mem_addDir_entries {fs : Fs} {c : List PathComponent}
    {e : List PathComponent × Bool} (he : e ∈ (fs.addDir c).entries) :
    e ∈ fs.entries ∨ e = (c, true) := by
  unfold Fs.addDir at he
  by_cases hx : fs.existsAt c = true
  · rw [if_pos hx] at he
    exact Or.inl he
  · rw [if_neg hx] at he
    simp only [List.mem_append, List.mem_singleton] at he
    exact he

theorem foldl_addDir_entries {chain : List (List PathComponent)} {fs : Fs}
    {e : List PathComponent × Bool}
    (he : e ∈ (chain.foldl Fs.addDir fs).entries) :
    e ∈ fs.entries ∨ (e.2 = true ∧ e.1 ∈ chain) := by
  induction chain generalizing fs with
  | nil => exact Or.inl he
  | cons c cs ih =>
    rw [List.foldl_cons] at he
    rcases ih he with h1 | h1
    · rcases mem_addDir_entries h1 with h2 | h2
      · exact Or.inl h2
      · refine Or.inr ⟨?_, ?_⟩
        · rw [h2]
        · rw [h2]
          exact List.mem_cons_self _ _
    · exact Or.inr ⟨h1.1, List.mem_cons_of_mem _ h1.2⟩

theorem createDirAll_entries {fs fs2 : Fs} {p : List Char}
    (h : fs.createDirAll p = Except.ok fs2) {e : List PathComponent × Bool}
    (he : e ∈ fs2.entries) :
    e ∈ fs.entries ∨ (e.2 = true ∧ e.1 ∈ componentPrefixes (componentsOf p)) := by
  unfold Fs.createDirAll at h
  by_cases hx : (componentPrefixes (componentsOf p)).any fs.isFileAt = true
  · rw [if_pos hx] at h
    exact Except.noConfusion h
  · rw [if_neg hx] at h
    cases h
    exact foldl_addDir_entries he

theorem ensureHubRoot_entries {fs fs2 : Fs} {st : HubStorage}
    (h : FileService.ensureHubRoot fs st = Except.ok fs2)
    {e : List PathComponent × Bool} (he : e ∈ fs2.entries) :
    e ∈ fs.entries ∨ (e.2 = true ∧ e.1 ∈ componentPrefixes (componentsOf st.hubRoot)) := by
  unfold FileService.ensureHubRoot at h
  cases hc : fs.createDirAll st.hubRoot with
  | ok fsx =>
    rw [hc] at h
    cases h
    exact createDirAll_entries hc he
  | error u =>
    rw [hc] at h
    exact Except.noConfusion h

theorem sanitizePathParam_error {rel : Option String} {e : ServiceError}
    (h : FileService.sanitizePathParam rel = Except.error e) :
    e = ServiceError.invalidPath := by
  unfold FileService.sanitizePathParam at h
  split at h
  · split at h
    · exact Except.noConfusion h
    · exact (Except.error.inj h).symm
  · exact Except.noConfusion h

theorem fileName_tryNew_error_of_ne {v : List Char}
    (h : ∀ c, componentsOf v ≠ [PathComponent.normal c]) :
    FileName.tryNew v = Except.error TypeConstraintError.invalidFileName := by
  unfold FileName.tryNew
  split
  · next c heq => exact absurd heq (h c)
  · rfl

/-! ### Claim C3 -/

/-- Claim C3 (confirmed): for every input string one of whose path components
is the parent-directory marker `..`, `RelativePath` construction from the
string fails with the invalid-path error and `FileName` construction fails
with the invalid-file-name error. -/
theorem c3_parent_rejection (s : String)
    (h : PathComponent.parentDir ∈ componentsOf s.data) :
    RelativePath.tryFromStr s = Except.error TypeConstraintError.invalidPath ∧
      FileName.tryFromStr s = Except.error TypeConstraintError.invalidFileName := by
  constructor
  · have hseg : ['.', '.'] ∈ segmentsOf s.data := parentDir_mem_componentsOf.mp h
    have hseg2 : ['.', '.'] ∈ segmentsOf (s.data.dropWhile (fun c => c = '/')) := by
      rw [segmentsOf_dropWhile_slash]
      exact hseg
    have hmem : PathComponent.parentDir ∈
        componentsOf (s.data.dropWhile (fun c => c = '/')) :=
      parentDir_mem_componentsOf.mpr hseg2
    unfold RelativePath.tryFromStr RelativePath.tryNew
    rw [if_pos hmem]
  · unfold FileName.tryFromStr
    refine fileName_tryNew_error_of_ne (fun c hc => ?_)
    rw [hc] at h
    rcases List.mem_singleton.mp h with h1
    exact PathComponent.noConfusion h1

/-- Witness for C3 at the concrete input `"a/../b"`. -/
theorem c3_parent_rejection_witness :
    RelativePath.tryFromStr "a/../b" = Except.error TypeConstraintError.invalidPath ∧
      FileName.tryFromStr "a/../b" = Except.error TypeConstraintError.invalidFileName :=
  c3_parent_rejection "a/../b" (by decide)

/-! ### Claim C6 -/

/-- Counterexample for C6 as stated: `FileName::try_new("foo/")` succeeds
(yielding the name `foo`) although the input string contains a path
separator, so construction does not fail for every string containing a
separator, nor only when the string itself is exactly one segment. -/
theorem c6_counterexample :
    FileName.tryNew "foo/".data = Except.ok ⟨"foo".data⟩ ∧
      '/' ∈ "foo/".data := by decide

/-- Claim C6 (amended): `FileName` construction succeeds exactly when the
parsed components of the input are a single normal segment (so trailing
separators and interior `.`/`//` are tolerated, e.g. `"foo/"` yields `foo`);
in particular it fails for every input containing a parent marker, for every
input parsing to two or more normal segments, and for the current-directory
marker. -/
theorem c6_amended_single_segment :
    (∀ s c : List Char,
        FileName.tryNew s = Except.ok ⟨c⟩ ↔ componentsOf s = [PathComponent.normal c])
    ∧ (∀ s : List Char, PathComponent.parentDir ∈ componentsOf s →
        FileName.tryNew s = Except.error TypeConstraintError.invalidFileName)
    ∧ (∀ s : List Char,
        2 ≤ (componentsOf s).countP (fun x => match x with
          | PathComponent.normal _ => true
          | _ => false) →
        FileName.tryNew s = Except.error TypeConstraintError.invalidFileName)
    ∧ FileName.tryNew ['.'] = Except.error TypeConstraintError.invalidFileName := by
  refine ⟨?_, ?_, ?_, by decide⟩
  · intro s c
    constructor
    · intro h
      exact fileName_tryNew_ok h
    · intro h
      unfold FileName.tryNew
      rw [h]
  · intro s h
    refine fileName_tryNew_error_of_ne (fun c hc => ?_)
    rw [hc] at h
    rcases List.mem_singleton.mp h with h1
    exact PathComponent.noConfusion h1
  · intro s h
    refine fileName_tryNew_error_of_ne (fun c hc => ?_)
    rw [hc] at h
    simp [List.countP_cons] at h

/-- Witness for the amended C6 at concrete inputs. -/
theorem c6_amended_single_segment_witness :
    FileName.tryNew "a/b".data = Except.error TypeConstraintError.invalidFileName ∧
      FileName.tryNew "name.txt".data = Except.ok ⟨"name.txt".data⟩ :=
  ⟨c6_amended_single_segment.2.2.1 "a/b".data (by decide),
   (c6_amended_single_segment.1 "name.txt".data "name.txt".data).mpr (by decide)⟩

/-! ### Claim C7 -/

/-- Counterexample for C7 as stated: on `"//foo"` the parser strips both
leading separators, yielding the path `foo`, not a path retaining the second
separator (`/foo`). -/
theorem c7_counterexample :
    RelativePath.tryFromStr "//foo" = Except.ok ⟨"foo".data⟩ ∧
      RelativePath.tryFromStr "//foo" ≠ Except.ok ⟨"/foo".data⟩ := by decide

/-- Claim C7 (amended): `RelativePath::try_from_str` strips the whole maximal
run of leading separators (not exactly one): every successful parse's value
is the input minus some run of leading `/` characters and itself starts with
no separator; the empty string is accepted and yields the tenant-root
value. -/
theorem c7_amended_strip_slashes :
    (∀ (s : String) (p : RelativePath), RelativePath.tryFromStr s = Except.ok p →
        ∃ k, s.data = List.replicate k '/' ++ p.val ∧ hasRoot p.val = false)
    ∧ RelativePath.tryFromStr "" = Except.ok RelativePath.root := by
  constructor
  · intro s p h
    have hval : p.val = s.data.dropWhile (fun c => c = '/') := relPath_tryNew_ok h
    refine ⟨(s.data.takeWhile (fun c => c = '/')).length, ?_, ?_⟩
    · have htk : s.data.takeWhile (fun c => c = '/') =
          List.replicate (s.data.takeWhile (fun c => c = '/')).length '/' := by
        apply List.eq_replicate_of_mem
        intro b hb
        have := List.mem_takeWhile_imp hb
        simpa using this
      rw [hval, ← htk, List.takeWhile_append_dropWhile]
    · rw [hval]
      exact hasRoot_dropWhile_slash _
  · decide

/-- Witness for the amended C7 at `"//foo"` and `""`. -/
theorem c7_amended_strip_slashes_witness :
    (∃ k, "//foo".data = List.replicate k '/' ++ ("foo".data : List Char) ∧
        hasRoot "foo".data = false) ∧
      RelativePath.tryFromStr "" = Except.ok RelativePath.root :=
  ⟨c7_amended_strip_slashes.1 "//foo" ⟨"foo".data⟩ (by decide),
   c7_amended_strip_slashes.2⟩

/-! ### Claim C1 -/

/-- Counterexample for C1 as stated: `RelativePath::try_new` accepts the
absolute path `/etc` (it only rejects `..` components), and resolving that
value against the tenant root `upload/7` yields `/etc`, which does not lie
inside the tenant root (`PathBuf::push` replaces the path when the argument
is absolute). -/
theorem c1_counterexample :
    RelativePath.tryNew "/etc".data = Except.ok ⟨"/etc".data⟩ ∧
      ¬ pathStartsWith
          (HubStorage.resolveDir ⟨"upload".data, 7⟩ ⟨"/etc".data⟩)
          (HubStorage.hubRoot ⟨"upload".data, 7⟩) := by decide

/-- Claim C1 (amended): every `RelativePath` produced by `try_from_str`, or
by `try_new` from an input without a root (no leading separator), and every
`FileName` produced by a successful construction, resolve against any tenant
root to a path having that tenant root as a path prefix.  (A rooted input
accepted by `try_new` can escape, as the counterexample shows.) -/
theorem c1_amended_containment (st : HubStorage) :
    (∀ (s : String) (p : RelativePath), RelativePath.tryFromStr s = Except.ok p →
        pathStartsWith (st.resolveDir p) st.hubRoot)
    ∧ (∀ (q : List Char) (p : RelativePath), RelativePath.tryNew q = Except.ok p →
        hasRoot q = false → pathStartsWith (st.resolveDir p) st.hubRoot)
    ∧ (∀ (s : String) (p : RelativePath) (t : List Char) (n : FileName),
        RelativePath.tryFromStr s = Except.ok p → FileName.tryNew t = Except.ok n →
        pathStartsWith (st.resolveFile p n) st.hubRoot) := by
  refine ⟨?_, ?_, ?_⟩
  · intro s p h
    have hv : hasRoot p.val = false := by
      rw [relPath_tryNew_ok h]
      exact hasRoot_dropWhile_slash _
    exact prefix_componentsOf_pushPath hv _
  · intro q p h hq
    have hval : p.val = q := relPath_tryNew_ok h
    unfold pathStartsWith HubStorage.resolveDir
    rw [hval]
    exact prefix_componentsOf_pushPath hq _
  · intro s p t n h hn
    have hv : hasRoot p.val = false := by
      rw [relPath_tryNew_ok h]
      exact hasRoot_dropWhile_slash _
    have h1 : componentsOf st.hubRoot <+: componentsOf (st.resolveDir p) :=
      prefix_componentsOf_pushPath hv _
    have hslash := normal_component_no_slash (fileName_tryNew_ok hn)
    have h2 : componentsOf (st.resolveDir p) <+: componentsOf (st.resolveFile p n) :=
      prefix_componentsOf_pushPath (hasRoot_eq_false_of_no_slash hslash.1) _
    exact h1.trans h2

/-- Witness for the amended C1 at a concrete root, hub, path and name. -/
theorem c1_amended_containment_witness :
    pathStartsWith
        (HubStorage.resolveDir ⟨"upload".data, 7⟩ ⟨"a/b".data⟩)
        (HubStorage.hubRoot ⟨"upload".data, 7⟩) ∧
      pathStartsWith
        (HubStorage.resolveFile ⟨"upload".data, 7⟩ ⟨"a/b".data⟩ ⟨"c.txt".data⟩)
        (HubStorage.hubRoot ⟨"upload".data, 7⟩) :=
  ⟨(c1_amended_containment ⟨"upload".data, 7⟩).1 "a/b" ⟨"a/b".data⟩ (by decide),
   (c1_amended_containment ⟨"upload".data, 7⟩).2.2 "a/b" ⟨"a/b".data⟩ "c.txt".data
      ⟨"c.txt".data⟩ (by decide) (by decide)⟩

/-! ### Claim C2 -/

/-- Counterexample for C2 as stated: with `a = x` and `b = /y` — both values
`try_new` accepts — `resolve_dir(join(a, b))` is `/y`, which does not have
`resolve_dir(a) = upload/7/x` as a path prefix. -/
theorem c2_counterexample :
    RelativePath.tryNew ['x'] = Except.ok ⟨['x']⟩ ∧
      RelativePath.tryNew "/y".data = Except.ok ⟨"/y".data⟩ ∧
      ¬ pathStartsWith
          (HubStorage.resolveDir ⟨"upload".data, 7⟩ (RelativePath.join ⟨['x']⟩ ⟨"/y".data⟩))
          (HubStorage.resolveDir ⟨"upload".data, 7⟩ ⟨['x']⟩) := by decide

/-- Claim C2 (amended): `join` is associative for all `RelativePath` values;
and whenever the right operand's path has no root (as every value from
`try_from_str` does), `resolve_dir(join(a, b))` has `resolve_dir(a)` as a
path prefix. -/
theorem c2_amended_join :
    (∀ a b c : RelativePath, (a.join b).join c = a.join (b.join c))
    ∧ (∀ (st : HubStorage) (a b : RelativePath), hasRoot b.val = false →
        pathStartsWith (st.resolveDir (a.join b)) (st.resolveDir a)) := by
  constructor
  · intro a b c
    unfold RelativePath.join
    rw [pushPath_assoc]
  · intro st a b hb
    unfold pathStartsWith HubStorage.resolveDir RelativePath.join
    rw [← pushPath_assoc]
    exact prefix_componentsOf_pushPath hb _

/-- Witness for the amended C2 at concrete paths. -/
theorem c2_amended_join_witness :
    (RelativePath.join (RelativePath.join ⟨['a']⟩ ⟨['b']⟩) ⟨['c']⟩ =
        RelativePath.join ⟨['a']⟩ (RelativePath.join ⟨['b']⟩ ⟨['c']⟩)) ∧
      pathStartsWith
        (HubStorage.resolveDir ⟨"upload".data, 7⟩ (RelativePath.join ⟨['a']⟩ ⟨['b']⟩))
        (HubStorage.resolveDir ⟨"upload".data, 7⟩ ⟨['a']⟩) :=
  ⟨c2_amended_join.1 _ _ _, c2_amended_join.2 ⟨"upload".data, 7⟩ ⟨['a']⟩ ⟨['b']⟩ (by decide)⟩

theorem authorize_error {svc : FileService} {user : AuthenticatedUser} {e : ServiceError}
    (h : svc.authorize user = Except.error e) : e = ServiceError.unauthorized := by
  unfold FileService.authorize at h
  by_cases hr : checkRole accessRole user.roles = true
  · rw [if_pos hr] at h
    exact Except.noConfusion h
  · rw [if_neg hr] at h
    exact (Except.error.inj h).symm

theorem ensureHubRoot_error {fs : Fs} {st : HubStorage} {e : ServiceError}
    (h : FileService.ensureHubRoot fs st = Except.error e) :
    e = ServiceError.storageSetup := by
  unfold FileService.ensureHubRoot at h
  cases hc : fs.createDirAll st.hubRoot with
  | ok fsx =>
    rw [hc] at h
    exact Except.noConfusion h
  | error u =>
    rw [hc] at h
    exact (Except.error.inj h).symm

/-! ### Claim C10 -/

/-- The alphabet of a hyphenated version-4 UUID's textual form: lower-case
hex digits and the hyphen. -/
def uuidChar (c : Char) : Bool :=
  (decide ('0' ≤ c) && decide (c ≤ '9')) ||
    (decide ('a' ≤ c) && decide (c ≤ 'f')) || decide (c = '-')

/-- Claim C10 (confirmed): when the client supplies no file name, the
generated name `upload-<uuid>` (the uuid text being hyphenated hex, so drawn
from hex digits and `-`) always passes `FileName` validation, and
`persist_upload` with an absent name can therefore never return the
invalid-file-name error. -/
theorem c10_generated_name (uuid : List Char)
    (h : ∀ c ∈ uuid, uuidChar c = true) :
    (∃ n, FileService.sanitizeFileName none uuid = Except.ok n) ∧
      ∀ (svc : FileService) (user : AuthenticatedUser) (rel : Option String) (fs : Fs),
        (FileService.persistUpload svc user rel none uuid fs).1 ≠
          Except.error ServiceError.invalidFileName := by
  have hpre : ("upload-".data : List Char) = ['u', 'p', 'l', 'o', 'a', 'd', '-'] := by decide
  have hnoslash : '/' ∉ ("upload-".data ++ uuid) := by
    intro hm
    rcases List.mem_append.mp hm with h1 | h1
    · rw [hpre] at h1
      exact absurd h1 (by decide)
    · exact absurd (h '/' h1) (by decide)
  have hne : ("upload-".data ++ uuid) ≠ [] := by
    rw [hpre]
    simp
  have hd1 : ("upload-".data ++ uuid) ≠ ['.'] := by
    rw [hpre]
    intro hx
    injection hx with h1 _
    exact absurd h1 (by decide)
  have hd2 : ("upload-".data ++ uuid) ≠ ['.', '.'] := by
    rw [hpre]
    intro hx
    injection hx with h1 _
    exact absurd h1 (by decide)
  have htry : FileName.tryNew ("upload-".data ++ uuid) =
      Except.ok ⟨"upload-".data ++ uuid⟩ := by
    unfold FileName.tryNew
    rw [componentsOf_single_normal hne hnoslash hd1 hd2]
  have hok : FileService.sanitizeFileName none uuid =
      Except.ok ⟨"upload-".data ++ uuid⟩ := by
    simp only [FileService.sanitizeFileName, htry]
  refine ⟨⟨_, hok⟩, ?_⟩
  intro svc user rel fs
  unfold FileService.persistUpload
  split
  · next e heq =>
    have := authorize_error heq
    subst this
    simp
  · next storage heq =>
    split
    · next e heq2 =>
      have := sanitizePathParam_error heq2
      subst this
      simp
    · next rel2 heq2 =>
      split
      · next e heq3 =>
        rw [hok] at heq3
        exact Except.noConfusion heq3
      · next fn heq3 =>
        split
        · next e heq4 =>
          have := ensureHubRoot_error heq4
          subst this
          simp
        · next fs2 heq4 =>
          dsimp only
          split
          · next heq5 => simp
          · next fs3 heq5 => simp

/-- Witness for C10 at a concrete uuid text. -/
theorem c10_generated_name_witness :
    (FileService.persistUpload ⟨"upload".data⟩
        ⟨"user", "user@example.com", 7, "User", ["crm"], 0⟩ none none
        "123e4567-e89b-42d3-a456-426614174000".data ⟨[]⟩).1 ≠
      Except.error ServiceError.invalidFileName :=
  (c10_generated_name "123e4567-e89b-42d3-a456-426614174000".data (by decide)).2
    ⟨"upload".data⟩ ⟨"user", "user@example.com", 7, "User", ["crm"], 0⟩ none ⟨[]⟩

/-! ### Claim C4 -/

/-- Counterexample for C4 as stated: `create_folder` runs the form's
emptiness validation before authorization, so with an empty requested name
an identity lacking the required role receives the `Validation` error, not
`Unauthorized` (the filesystem is still untouched); the repository's own
`unauthorized_without_role` test pins exactly this behaviour. -/
theorem c4_counterexample :
    checkRole accessRole ([] : List String) = false ∧
      (FileService.createFolder ⟨"upload".data⟩
          ⟨"user", "user@example.com", 7, "User", [], 0⟩ none ⟨""⟩ ⟨[]⟩).2 = (⟨[]⟩ : Fs) ∧
      validationClass (FileService.createFolder ⟨"upload".data⟩
          ⟨"user", "user@example.com", 7, "User", [], 0⟩ none ⟨""⟩ ⟨[]⟩).1 = true ∧
      (FileService.createFolder ⟨"upload".data⟩
          ⟨"user", "user@example.com", 7, "User", [], 0⟩ none ⟨""⟩ ⟨[]⟩).1 ≠
        Except.error ServiceError.unauthorized := by decide

/-- Claim C4 (amended): with an identity lacking the required role,
`list_entries` and `persist_upload` return `Unauthorized` and leave the
filesystem unchanged for every input; `create_folder` does so for every
input whose form passes the emptiness validation, and in all remaining cases
still performs no filesystem mutation (returning the `Validation` error
instead). -/
theorem c4_amended_unauthorized (svc : FileService) (user : AuthenticatedUser)
    (rel rawName cp : Option String) (uuid : List Char) (form : CreateFolderForm)
    (fs : Fs) (hrole : checkRole accessRole user.roles = false) :
    FileService.listEntries svc user rel fs = (Except.error ServiceError.unauthorized, fs)
    ∧ FileService.persistUpload svc user rel rawName uuid fs =
        (Except.error ServiceError.unauthorized, fs)
    ∧ (form.validate = Except.ok () →
        FileService.createFolder svc user cp form fs =
          (Except.error ServiceError.unauthorized, fs))
    ∧ (FileService.createFolder svc user cp form fs).2 = fs := by
  have hauth : svc.authorize user = Except.error ServiceError.unauthorized := by
    unfold FileService.authorize
    rw [if_neg (by simp [hrole])]
  refine ⟨?_, ?_, ?_, ?_⟩
  · unfold FileService.listEntries FileService.listEntriesWith
    rw [hauth]
  · unfold FileService.persistUpload
    rw [hauth]
  · intro hv
    unfold FileService.createFolder
    rw [hv, hauth]
  · unfold FileService.createFolder
    cases hv : form.validate with
    | ok u => rw [hauth]
    | error e => rfl

/-- Witness for the amended C4 at a concrete role-less identity. -/
theorem c4_amended_unauthorized_witness :
    FileService.listEntries ⟨"upload".data⟩
        ⟨"user", "user@example.com", 7, "User", [], 0⟩ none ⟨[]⟩ =
      (Except.error ServiceError.unauthorized, (⟨[]⟩ : Fs)) ∧
      FileService.createFolder ⟨"upload".data⟩
          ⟨"user", "user@example.com", 7, "User", [], 0⟩ none ⟨"beta"⟩ ⟨[]⟩ =
        (Except.error ServiceError.unauthorized, (⟨[]⟩ : Fs)) :=
  ⟨(c4_amended_unauthorized ⟨"upload".data⟩ ⟨"user", "user@example.com", 7, "User", [], 0⟩
      none none none [] ⟨"beta"⟩ ⟨[]⟩ (by decide)).1,
   (c4_amended_unauthorized ⟨"upload".data⟩ ⟨"user", "user@example.com", 7, "User", [], 0⟩
      none none none [] ⟨"beta"⟩ ⟨[]⟩ (by decide)).2.2.1 (by decide)⟩

theorem authorize_ok {svc : FileService} {user : AuthenticatedUser} {st : HubStorage}
    (h : svc.authorize user = Except.ok st) : st = ⟨svc.uploadRoot, user.hubId⟩ := by
  unfold FileService.authorize at h
  by_cases hr : checkRole accessRole user.roles = true
  · rw [if_pos hr] at h
    exact (Except.ok.inj h).symm
  · rw [if_neg hr] at h
    exact Except.noConfusion h


/-! ### Claim C5 -/

/-- Counterexample for C5 as stated: `create_folder` ensures the tenant root
directory (filesystem I/O) before validating the current path, so a call
with the invalid path `../x` returns the validation-class `InvalidPath`
error yet leaves the filesystem changed (the tenant root was created). -/
theorem c5_counterexample :
    (FileService.createFolder ⟨"upload".data⟩
        ⟨"user", "user@example.com", 7, "User", ["crm"], 0⟩
        (some "../x") ⟨"safe"⟩ ⟨[]⟩).1 = Except.error ServiceError.invalidPath ∧
      (FileService.createFolder ⟨"upload".data⟩
          ⟨"user", "user@example.com", 7, "User", ["crm"], 0⟩
          (some "../x") ⟨"safe"⟩ ⟨[]⟩).2 ≠ (⟨[]⟩ : Fs) := by decide

/-- Claim C5 (amended): in `persist_upload` every validation failure is
detected before any I/O, so a validation-class error leaves the filesystem
exactly unchanged; in `create_folder` the empty-name check precedes all I/O;
but `list_entries` and `create_folder` detect the remaining validation
failures only after ensuring the tenant root, so a validation-class error
from them leaves the filesystem unchanged except possibly for directories
created along the tenant-root chain. -/
theorem c5_amended_validation_order :
    (∀ (svc : FileService) (user : AuthenticatedUser) (rel rawName : Option String)
        (uuid : List Char) (fs : Fs),
        validationClass (FileService.persistUpload svc user rel rawName uuid fs).1 = true →
        (FileService.persistUpload svc user rel rawName uuid fs).2 = fs)
    ∧ (∀ (svc : FileService) (user : AuthenticatedUser) (cp : Option String)
        (form : CreateFolderForm) (fs : Fs) (e : String),
        form.validate = Except.error e →
        FileService.createFolder svc user cp form fs =
          (Except.error (ServiceError.validation e), fs))
    ∧ (∀ (svc : FileService) (user : AuthenticatedUser) (rel : Option String) (fs : Fs),
        validationClass (FileService.listEntries svc user rel fs).1 = true →
        ∀ en ∈ (FileService.listEntries svc user rel fs).2.entries,
          en ∈ fs.entries ∨ (en.2 = true ∧
            en.1 ∈ componentPrefixes (componentsOf
              (pushPath svc.uploadRoot (hubIdChars user.hubId)))))
    ∧ (∀ (svc : FileService) (user : AuthenticatedUser) (cp : Option String)
        (form : CreateFolderForm) (fs : Fs),
        validationClass (FileService.createFolder svc user cp form fs).1 = true →
        ∀ en ∈ (FileService.createFolder svc user cp form fs).2.entries,
          en ∈ fs.entries ∨ (en.2 = true ∧
            en.1 ∈ componentPrefixes (componentsOf
              (pushPath svc.uploadRoot (hubIdChars user.hubId))))) := by
  refine ⟨?_, ?_, ?_, ?_⟩
  · intro svc user rel rawName uuid fs
    unfold FileService.persistUpload
    split
    · intro _
      rfl
    · split
      · intro _
        rfl
      · split
        · intro _
          rfl
        · split
          · intro _
            rfl
          · dsimp only
            split
            · intro hv
              simp [validationClass] at hv
            · intro hv
              simp [validationClass] at hv
  · intro svc user cp form fs e hv
    unfold FileService.createFolder
    rw [hv]
  · intro svc user rel fs
    unfold FileService.listEntries FileService.listEntriesWith
    split
    · intro _ en hen
      exact Or.inl hen
    · next storage heq =>
      split
      · intro _ en hen
        exact Or.inl hen
      · split
        · intro _ en hen
          exact Or.inl hen
        · next fs2 heq3 =>
          dsimp only
          split
          · intro hv
            simp [validationClass] at hv
          · split
            · intro _ en hen
              have hst := authorize_ok heq
              rcases ensureHubRoot_entries heq3 hen with h1 | h1
              · exact Or.inl h1
              · refine Or.inr ⟨h1.1, ?_⟩
                rw [hst] at h1
                exact h1.2
            · intro hv
              simp [validationClass] at hv
  · intro svc user cp form fs
    unfold FileService.createFolder
    split
    · intro _ en hen
      exact Or.inl hen
    · split
      · intro _ en hen
        exact Or.inl hen
      · next storage heq =>
        split
        · intro _ en hen
          exact Or.inl hen
        · next fs2 heq2 =>
          split
          · intro _ en hen
            have hst := authorize_ok heq
            rcases ensureHubRoot_entries heq2 hen with h1 | h1
            · exact Or.inl h1
            · refine Or.inr ⟨h1.1, ?_⟩
              rw [hst] at h1
              exact h1.2
          · split
            · intro _ en hen
              have hst := authorize_ok heq
              rcases ensureHubRoot_entries heq2 hen with h1 | h1
              · exact Or.inl h1
              · refine Or.inr ⟨h1.1, ?_⟩
                rw [hst] at h1
                exact h1.2
            · dsimp only
              split
              · intro hv
                simp [validationClass] at hv
              · intro hv
                simp [validationClass] at hv

/-- Witness for the amended C5: a failed upload validation leaves the
filesystem untouched, and an empty folder name is rejected with no
mutation. -/
theorem c5_amended_validation_order_witness :
    (FileService.persistUpload ⟨"upload".data⟩
        ⟨"user", "user@example.com", 7, "User", ["crm"], 0⟩
        (some "../x") none [] ⟨[]⟩).2 = (⟨[]⟩ : Fs) ∧
      FileService.createFolder ⟨"upload".data⟩
          ⟨"user", "user@example.com", 7, "User", ["crm"], 0⟩ none ⟨""⟩ ⟨[]⟩ =
        (Except.error (ServiceError.validation "name: length"), (⟨[]⟩ : Fs)) :=
  ⟨c5_amended_validation_order.1 ⟨"upload".data⟩
      ⟨"user", "user@example.com", 7, "User", ["crm"], 0⟩ (some "../x") none [] ⟨[]⟩
      (by decide),
   c5_amended_validation_order.2.1 ⟨"upload".data⟩
      ⟨"user", "user@example.com", 7, "User", ["crm"], 0⟩ none ⟨""⟩ ⟨[]⟩ "name: length"
      (by decide)⟩

/-! ### Claim C8 -/

/-- Claim C8 (confirmed): once `list_entries` has authorized, validated the
path and ensured the tenant root, a resolved target that does not exist
yields `Ok` with the empty listing (not an error), and a target that exists
but is not a directory yields the `InvalidPath` error. -/
theorem c8_missing_target (svc : FileService) (user : AuthenticatedUser)
    (rel : Option String) (fs : Fs) (storage : HubStorage) (relp : RelativePath)
    (fs2 : Fs) (h1 : svc.authorize user = Except.ok storage)
    (h2 : FileService.sanitizePathParam rel = Except.ok relp)
    (h3 : FileService.ensureHubRoot fs storage = Except.ok fs2) :
    (fs2.existsAt (componentsOf (storage.resolveDir relp)) = false →
        FileService.listEntries svc user rel fs = (Except.ok [], fs2))
    ∧ (fs2.existsAt (componentsOf (storage.resolveDir relp)) = true →
        fs2.isDirAt (componentsOf (storage.resolveDir relp)) = false →
        (FileService.listEntries svc user rel fs).1 =
          Except.error ServiceError.invalidPath) := by
  constructor
  · intro hex
    simp only [FileService.listEntries, FileService.listEntriesWith, h1, h2, h3]
    rw [if_pos hex]
  · intro hex hdir
    simp only [FileService.listEntries, FileService.listEntriesWith, h1, h2, h3]
    rw [if_neg (by simp [hex]), if_pos hdir]

/-- Witness for C8: listing a never-used subfolder of a fresh tenant returns
the empty list. -/
theorem c8_missing_target_witness :
    FileService.listEntries ⟨"up".data⟩
        ⟨"user", "user@example.com", 7, "User", ["crm"], 0⟩ (some "sub") ⟨[]⟩ =
      (Except.ok [],
        (⟨[([PathComponent.normal "up".data], true),
            ([PathComponent.normal "up".data, PathComponent.normal ['7']], true)]⟩ : Fs)) :=
  (c8_missing_target ⟨"up".data⟩ ⟨"user", "user@example.com", 7, "User", ["crm"], 0⟩
      (some "sub") ⟨[]⟩ ⟨"up".data, 7⟩ ⟨"sub".data⟩
      ⟨[([PathComponent.normal "up".data], true),
        ([PathComponent.normal "up".data, PathComponent.normal ['7']], true)]⟩
      (by decide) (by decide) (by decide)).1 (by decide)

/-! ### Claim C9 -/

/-- The ordering the spec requires of a listing, relative to the
name-lowercasing function `low` (the denotation of `str::to_lowercase`): a
directory never follows a file, and inside a run of equal kinds names are in
lexicographic order of their lowercased forms. -/
def dtoLe (low : List Char → List Char) (a b : FileEntryDto) : Prop :=
  (a.isDirectory = true ∧ b.isDirectory = false) ∨
    (a.isDirectory = b.isDirectory ∧
      charListLe (low a.name.data) (low b.name.data) = true)

theorem entryRel_map_dtoLe {low : List Char → List Char} {a b : StorageEntry}
    (h : entryRel low a b) :
    dtoLe low (FileEntryDto.ofEntry a) (FileEntryDto.ofEntry b) := by
  unfold entryRel entryLe at h
  unfold dtoLe FileEntryDto.ofEntry
  dsimp only
  cases ha : a.isDirectory <;> cases hb : b.isDirectory <;> rw [ha, hb] at h
  · exact Or.inr ⟨rfl, h⟩
  · exact Bool.noConfusion h
  · exact Or.inl ⟨rfl, rfl⟩
  · exact Or.inr ⟨rfl, h⟩

/-- Claim C9 (confirmed): for every choice of the name-lowercasing function
— in particular for the full-Unicode mapping `str::to_lowercase` denotes,
whose case tables live in the standard library, outside this repository —
every listing `list_entries` returns is ordered with all directories before
all files and by lowercased name within each group, and every returned DTO
is either flagged as a directory or is a file whose `is_image` flag is true
exactly when the name's ASCII-lowercased extension lies in the fixed
image-extension set (the extension test in the source uses
`to_ascii_lowercase`). -/
theorem c9_listing_sorted (low : List Char → List Char) (svc : FileService)
    (user : AuthenticatedUser) (rel : Option String) (fs : Fs)
    (dtos : List FileEntryDto) (fs2 : Fs)
    (h : FileService.listEntriesWith low svc user rel fs = (Except.ok dtos, fs2)) :
    List.Pairwise (dtoLe low) dtos ∧
      ∀ d ∈ dtos, d.isDirectory = true ∨
        (d.isDirectory = false ∧
          (d.isImage = true ↔
            ∃ ext, pathExtension d.name.data = some ext ∧
              asciiLower ext ∈ imageExtensions)) := by
  unfold FileService.listEntriesWith at h
  split at h
  · exact absurd (congrArg Prod.fst h) (by simp)
  · split at h
    · exact absurd (congrArg Prod.fst h) (by simp)
    · split at h
      · exact absurd (congrArg Prod.fst h) (by simp)
      · next fs2x heqens =>
        dsimp only at h
        split at h
        · have hd : ([] : List FileEntryDto) = dtos :=
            Except.ok.inj (congrArg Prod.fst h)
          rw [← hd]
          exact ⟨List.Pairwise.nil, by simp⟩
        · split at h
          · exact absurd (congrArg Prod.fst h) (by simp)
          · have hd := Except.ok.inj (congrArg Prod.fst h)
            rw [← hd]
            constructor
            · exact List.Pairwise.map _ (fun a b hab => entryRel_map_dtoLe hab)
                (List.sorted_insertionSort (entryRel low) _)
            · intro d hd2
              obtain ⟨ent, hent, hde⟩ := List.mem_map.mp hd2
              subst hde
              have hent2 : ent ∈ listEntriesScan (fs2x.readDir _) :=
                (List.mem_insertionSort (entryRel low)).mp hent
              unfold listEntriesScan at hent2
              obtain ⟨x, hx, hfx⟩ := List.mem_filterMap.mp hent2
              split at hfx
              · next name heqn =>
                have hent3 := Option.some.inj hfx
                subst hent3
                cases hx2 : x.2 with
                | true => exact Or.inl rfl
                | false =>
                  refine Or.inr ⟨rfl, ?_⟩
                  show FileName.isImage name = true ↔
                    ∃ ext, pathExtension name.val = some ext ∧
                      asciiLower ext ∈ imageExtensions
                  unfold FileName.isImage
                  cases hpe : pathExtension name.val with
                  | some ext =>
                    constructor
                    · intro hdec
                      exact ⟨ext, rfl, of_decide_eq_true hdec⟩
                    · rintro ⟨e2, he2, hm⟩
                      cases Option.some.inj he2
                      exact decide_eq_true hm
                  | none =>
                    simp
              · exact Option.noConfusion hfx

/-- Witness for C9: a concrete listing with one folder and one file comes
back directory-first and correctly flagged (the lowercasing function
instantiated with the executable ASCII case mapping). -/
theorem c9_listing_sorted_witness :
    List.Pairwise (dtoLe asciiLower) [⟨"A", true, false⟩, ⟨"b.txt", false, false⟩] :=
  (c9_listing_sorted asciiLower ⟨"up".data⟩
      ⟨"user", "user@example.com", 7, "User", ["crm"], 0⟩ none
      ⟨[([PathComponent.normal "up".data], true),
        ([PathComponent.normal "up".data, PathComponent.normal ['7']], true),
        ([PathComponent.normal "up".data, PathComponent.normal ['7'],
          PathComponent.normal "b.txt".data], false),
        ([PathComponent.normal "up".data, PathComponent.normal ['7'],
          PathComponent.normal "A".data], true)]⟩
      [⟨"A", true, false⟩, ⟨"b.txt", false, false⟩]
      ⟨[([PathComponent.normal "up".data], true),
        ([PathComponent.normal "up".data, PathComponent.normal ['7']], true),
        ([PathComponent.normal "up".data, PathComponent.normal ['7'],
          PathComponent.normal "b.txt".data], false),
        ([PathComponent.normal "up".data, PathComponent.normal ['7'],
          PathComponent.normal "A".data], true)]⟩
      (by decide)).1
